import Mathlib

/-!
Shallow embedding of the column-reconciliation core of
`src/standardize_data_copy.py` (function `standardize_data`, lines 92-158,
and its helper `remove_column_numbering`, lines 55-79).

A table is modelled as a pandas `DataFrame`: a row count (the length of the
default `RangeIndex`) together with an ordered list of named columns, each
column a list of cells.  A cell is either a value (`some v`) or a missing
entry / `NaN` (`none`); cell contents are opaque strings, they pass through
the algorithm unmodified.

The pandas operations that `standardize_data` actually performs are embedded
with their semantics:

* `standardized_df[col] = series` first runs `_ensure_valid_index` (GH5632):
  when the frame's index is empty and the series is non-empty, the frame
  adopts the series' index and the already-present columns are reindexed
  against it with `NaN` fill — this also covers the initially empty
  `pd.DataFrame()`, whose index is set from the first non-empty assignment;
* the assignment itself aligns the series to the frame's (possibly just
  adopted) index, truncating or padding with `NaN`, overwriting the column
  in place if the name exists and appending it at the end otherwise;
* `new_df[name]`, when `name` labels two or more columns of `new_df`,
  yields a multi-column selection whose assignment to a single column
  raises (`ValueError: Cannot set a DataFrame with multiple columns ...`).

A raised exception is caught by the `try/except` of `standardize_data`
and nothing is saved, so the reconciliation result is an `Option`:
`none` means the run died and no output table was produced.  The only
raise reachable in the embedded region is the duplicate-label one above.
-/

namespace VMTT

/-- A cell of a table: `none` is a missing value (`NaN`), `some v` an opaque
stored value. -/
abbrev Cell := Option String

/-- A pandas `DataFrame`: the length of its (default range) index together
with its ordered, possibly repeatedly named, columns. -/
structure Table where
  nrows : Nat
  cols : List (String × List Cell)
deriving Repr, DecidableEq

/-- The column names of a table, left to right (`df.columns.tolist()`). -/
def colNames (t : Table) : List String := t.cols.map Prod.fst

/-- Well-formedness guaranteed by the reading collaborator: every column
holds exactly `nrows` cells. -/
def WFTable (t : Table) : Prop := ∀ p ∈ t.cols, (p.2).length = t.nrows

instance (t : Table) : Decidable (WFTable t) := by
  unfold WFTable; infer_instance

/-! ### Suffix stripping (`remove_column_numbering`, lines 70-79)

`re.sub(r'\.\d+$', '', col)` removes one trailing group consisting of a
literal dot followed by one or more digits. -/

/-- Does the name end in a literal `.` followed by one or more digits? -/
def endsWithDotNumber (s : String) : Bool :=
  match s.data.reverse.dropWhile Char.isDigit with
  | '.' :: _ => !(s.data.reverse.takeWhile Char.isDigit).isEmpty
  | _ => false

/-- One application of `re.sub(r'\.\d+$', '', col)`: removes the trailing
dot-digits group when present, otherwise returns the name unchanged. -/
def stripDotNumber (s : String) : String :=
  match s.data.reverse.dropWhile Char.isDigit with
  | '.' :: rest =>
    if (s.data.reverse.takeWhile Char.isDigit).isEmpty then s
    else String.mk rest.reverse
  | _ => s

/-- `remove_column_numbering` (lines 70-79): rename every column of the
frame by one dot-number strip, keeping the data. -/
def removeColumnNumbering (t : Table) : Table :=
  ⟨t.nrows, t.cols.map fun p => (stripDotNumber p.1, p.2)⟩

/-! ### Decimal rendering for the `f"{col}_{i+1}"` instance suffix -/

/-- Decimal digit characters, most significant first, with structural fuel
(the fuel argument only bounds the recursion depth; `natChars` supplies
`n` itself, which always exceeds the digit count, so this computes the
characters of python's `str(n)`). -/
def natCharsFuel : Nat → Nat → List Char
  | 0, n => [Char.ofNat (48 + n % 10)]
  | fuel + 1, n =>
    if n < 10 then [Char.ofNat (48 + n)]
    else natCharsFuel fuel (n / 10) ++ [Char.ofNat (48 + n % 10)]

/-- The decimal digit characters of `n`, most significant first (the
characters of python's `str(n)`). -/
def natChars (n : Nat) : List Char := natCharsFuel n n

/-- Python's `str(n)` for a natural number. -/
def natStr (n : Nat) : String := String.mk (natChars n)

/-- The name `f"{col}_{i+1}"` given to instance `i` (0-based) of a
multi-instance column (line 152). -/
def instSuffix (col : String) (i : Nat) : String :=
  col ++ "_" ++ natStr (i + 1)

/-! ### The census (lines 97-100 / 107-109) and the unique-name scan
(lines 127-133) -/

/-- One step of `d[col] = d.get(col, 0) + 1` on an insertion-ordered dict,
modelled as an association list. -/
def bump (acc : List (String × Nat)) (c : String) : List (String × Nat) :=
  if c ∈ acc.map Prod.fst then
    acc.map fun p => if p.1 = c then (p.1, p.2 + 1) else p
  else acc ++ [(c, 1)]

/-- The per-name instance counts of a column-name list, in dict insertion
order (lines 98-100): `base_column_counts` / `new_column_counts`. -/
def buildCounts (l : List String) : List (String × Nat) := l.foldl bump []

/-- The `unique_columns` scan of lines 127-133: each distinct name once, in
order of first occurrence, skipping names already in the `seen` set. -/
def uniqueFirst : List String → List String → List String
  | [], _ => []
  | c :: rest, seen =>
    if c ∈ seen then uniqueFirst rest seen
    else c :: uniqueFirst rest (c :: seen)

/-- The `missing_instances` warning list of lines 112-115: one triple
`(name, required, found)` per reference name with too few instances in the
target, in reference dict order. -/
def missingInstances (base target : Table) : List (String × Nat × Nat) :=
  (buildCounts (colNames base)).filterMap fun p =>
    match (buildCounts (colNames target)).lookup p.1 with
    | none => some (p.1, p.2, 0)
    | some f => if f < p.2 then some (p.1, p.2, f) else none

/-! ### Column assignment with pandas semantics -/

/-- Reindexing a series (default range index, values `s`) to a frame index
of length `n`: position `i` receives the series value at `i` when it
exists, `NaN` otherwise. -/
def alignTo (n : Nat) (s : List Cell) : List Cell :=
  (List.range n).map fun i => (s.get? i).getD none

/-- The column-set proper, on a frame whose index length is already
settled: the series is aligned to that index, the column is replaced in
place when the name is already present and appended at the end otherwise. -/
def putCol (nr : Nat) (cols : List (String × List Cell)) (name : String)
    (s : List Cell) : Table :=
  if name ∈ cols.map Prod.fst then
    ⟨nr, cols.map fun p => if p.1 = name then (p.1, alignTo nr s) else p⟩
  else ⟨nr, cols ++ [(name, alignTo nr s)]⟩

/-- `standardized_df[name] = series`.  When the frame's index is empty and
the series is not, `_ensure_valid_index` (GH5632) first makes the frame
adopt the series' index, reindexing any already-present columns against it
with `NaN` fill; the aligned column-set then proceeds on the expanded
frame.  In every other case the series is simply aligned to the frame's
index. -/
def setCol (df : Table) (name : String) (s : List Cell) : Table :=
  if df.nrows = 0 ∧ s ≠ [] then
    putCol s.length
      (df.cols.map fun p => (p.1, List.replicate s.length (none : Cell)))
      name s
  else putCol df.nrows df.cols name s

/-- The sequence of assignments `(output name, series values)` performed for
one reference name `col` by lines 136-155, or `none` when the data access
`new_df[col]` yields a multi-column selection (two or more target columns
named `col`), whose assignment raises. -/
def colAssignments (baseCols : List String) (target : Table) (col : String) :
    Option (List (String × List Cell)) :=
  let hits := target.cols.filter fun p => p.1 = col
  let req := ((buildCounts baseCols).lookup col).getD 0
  match hits with
  | [] =>
    some (if req = 1 then [(col, [])]
          else (List.range req).map fun i => (instSuffix col i, []))
  | [m] =>
    some (if req = 1 then [(col, m.2)]
          else (List.range req).map fun i =>
            (instSuffix col i, if i = 0 then m.2 else []))
  | _ => none

/-- Processing of one reference name (one iteration of the loop at line
136): perform its assignments in order; `none` only when the data access
for this name raised. -/
def processCol (baseCols : List String) (target : Table) (df : Table)
    (col : String) : Option Table :=
  match colAssignments baseCols target col with
  | none => none
  | some as => some (as.foldl (fun d p => setCol d p.1 p.2) df)

/-- Lines 124-155: the `standardized_df` built from `pd.DataFrame()` by
processing each unique reference name, `none` when a raise occurred. -/
def standardizeDF (base target : Table) : Option Table :=
  (uniqueFirst (colNames base) []).foldlM
    (processCol (colNames base) target) ⟨0, []⟩

/-- Lines 124-158: the table that `standardize_data` saves over the target
file (the standardized frame after `remove_column_numbering`), or `none`
when an exception aborted the run and nothing was saved. -/
def standardizeTable (base target : Table) : Option Table :=
  (standardizeDF base target).map removeColumnNumbering

/-! ### Specification-level descriptions used to state the claims -/

/-- Inserting a column name as pandas `__setitem__` does: keep the list
unchanged when the name is already a column, append it otherwise. -/
def setName (ns : List String) (n : String) : List String :=
  if n ∈ ns then ns else ns ++ [n]

/-- The output names generated for one reference name: the bare name for a
single-instance name, `name_1 … name_k` for a `k`-instance name. -/
def expandName (baseCols : List String) (col : String) : List String :=
  if baseCols.count col = 1 then [col]
  else (List.range (baseCols.count col)).map (instSuffix col)

/-- The full generated-name sequence: reference first-occurrence order,
each name expanded into its required instance positions. -/
def expandedNames (baseCols : List String) : List String :=
  (uniqueFirst baseCols []).flatMap (expandName baseCols)

/-! ### Properties of the census and the unique-name scan -/

theorem uniqueFirst_mem :
    ∀ (l seen : List String) (n : String),
      n ∈ uniqueFirst l seen ↔ n ∈ l ∧ n ∉ seen := by
  intro l
  induction l with
  | nil => intro seen n; simp [uniqueFirst]
  | cons c rest ih =>
    intro seen n
    simp only [uniqueFirst]
    by_cases hc : c ∈ seen
    · rw [if_pos hc, ih]
      simp only [List.mem_cons]
      constructor
      · rintro ⟨h1, h2⟩; exact ⟨Or.inr h1, h2⟩
      · rintro ⟨h1 | h1, h2⟩
        · exact absurd (h1 ▸ hc) h2
        · exact ⟨h1, h2⟩
    · rw [if_neg hc]
      simp only [List.mem_cons, ih]
      constructor
      · rintro (h | ⟨h1, h2⟩)
        · exact ⟨Or.inl h, h ▸ hc⟩
        · refine ⟨Or.inr h1, fun hn => h2 (Or.inr hn)⟩
      · rintro ⟨h1 | h1, h2⟩
        · exact Or.inl h1
        · by_cases hnc : n = c
          · exact Or.inl hnc
          · exact Or.inr ⟨h1, fun hn => hn.elim hnc h2⟩

theorem uniqueFirst_nodup : ∀ (l seen : List String), (uniqueFirst l seen).Nodup := by
  intro l
  induction l with
  | nil => intro seen; simp [uniqueFirst]
  | cons c rest ih =>
    intro seen
    simp only [uniqueFirst]
    by_cases hc : c ∈ seen
    · rw [if_pos hc]; exact ih seen
    · rw [if_neg hc]
      refine List.Nodup.cons ?_ (ih (c :: seen))
      intro hmem
      exact ((uniqueFirst_mem rest (c :: seen) c).mp hmem).2 (List.mem_cons_self c seen)

theorem uniqueFirst_congr :
    ∀ (l s1 s2 : List String), (∀ x, x ∈ s1 ↔ x ∈ s2) →
      uniqueFirst l s1 = uniqueFirst l s2 := by
  intro l
  induction l with
  | nil => intro s1 s2 _; rfl
  | cons c rest ih =>
    intro s1 s2 h
    simp only [uniqueFirst]
    by_cases hc : c ∈ s1
    · rw [if_pos hc, if_pos ((h c).mp hc)]
      exact ih s1 s2 h
    · rw [if_neg hc, if_neg (fun hx => hc ((h c).mpr hx))]
      congr 1
      refine ih _ _ (fun x => ?_)
      simp only [List.mem_cons]
      exact or_congr Iff.rfl (h x)

theorem uniqueFirst_pairwise :
    ∀ (l seen : List String),
      (uniqueFirst l seen).Pairwise (fun a b => l.indexOf a < l.indexOf b) := by
  intro l
  induction l with
  | nil => intro seen; simp [uniqueFirst]
  | cons c rest ih =>
    intro seen
    simp only [uniqueFirst]
    by_cases hc : c ∈ seen
    · rw [if_pos hc]
      refine (ih seen).imp_of_mem ?_
      intro a b ha hb hab
      have hac : c ≠ a := fun h => ((uniqueFirst_mem rest seen a).mp ha).2 (h ▸ hc)
      have hbc : c ≠ b := fun h => ((uniqueFirst_mem rest seen b).mp hb).2 (h ▸ hc)
      rw [List.indexOf_cons_ne rest hac, List.indexOf_cons_ne rest hbc]
      omega
    · rw [if_neg hc, List.pairwise_cons]
      constructor
      · intro b hb
        have hbc : c ≠ b := fun h =>
          ((uniqueFirst_mem rest (c :: seen) b).mp hb).2 (h ▸ List.mem_cons_self c seen)
        rw [List.indexOf_cons_self, List.indexOf_cons_ne rest hbc]
        omega
      · refine (ih (c :: seen)).imp_of_mem ?_
        intro a b ha hb hab
        have hac : c ≠ a := fun h =>
          ((uniqueFirst_mem rest (c :: seen) a).mp ha).2 (h ▸ List.mem_cons_self c seen)
        have hbc : c ≠ b := fun h =>
          ((uniqueFirst_mem rest (c :: seen) b).mp hb).2 (h ▸ List.mem_cons_self c seen)
        rw [List.indexOf_cons_ne rest hac, List.indexOf_cons_ne rest hbc]
        omega

theorem foldl_bump_eq :
    ∀ (l : List String) (acc : List (String × Nat)),
      l.foldl bump acc =
        acc.map (fun p => (p.1, p.2 + l.count p.1)) ++
          (uniqueFirst l (acc.map Prod.fst)).map (fun n => (n, l.count n)) := by
  intro l
  induction l with
  | nil => intro acc; simp [uniqueFirst]
  | cons c rest ih =>
    intro acc
    rw [List.foldl_cons, ih (bump acc c)]
    unfold bump
    by_cases hc : c ∈ acc.map Prod.fst
    · rw [if_pos hc]
      have hfst :
          ((acc.map fun p => if p.1 = c then (p.1, p.2 + 1) else p).map Prod.fst) =
            acc.map Prod.fst := by
        rw [List.map_map]
        refine List.map_congr_left (fun p _ => ?_)
        by_cases h : p.1 = c <;> simp [h]
      rw [hfst]
      have huniq : uniqueFirst (c :: rest) (acc.map Prod.fst) =
          uniqueFirst rest (acc.map Prod.fst) := by
        simp only [uniqueFirst]; rw [if_pos hc]
      rw [huniq]
      congr 1
      · rw [List.map_map]
        refine List.map_congr_left (fun p _ => ?_)
        simp only [Function.comp_apply]
        by_cases h : p.1 = c
        · rw [if_pos h]
          simp only [Prod.mk.injEq, List.count_cons, true_and]
          simp [h]
          omega
        · rw [if_neg h]
          simp only [Prod.mk.injEq, List.count_cons, true_and]
          simp [h]
          exact fun e => h e.symm
      · refine List.map_congr_left (fun n hn => ?_)
        have hnc : n ≠ c := by
          intro h
          exact ((uniqueFirst_mem rest (acc.map Prod.fst) n).mp hn).2 (h ▸ hc)
        simp [List.count_cons, hnc]
    · rw [if_neg hc]
      have hfst : ((acc ++ [(c, 1)]).map Prod.fst) = acc.map Prod.fst ++ [c] := by
        simp
      rw [hfst]
      have hseen : uniqueFirst rest (acc.map Prod.fst ++ [c]) =
          uniqueFirst rest (c :: acc.map Prod.fst) := by
        refine uniqueFirst_congr rest _ _ (fun x => ?_)
        simp only [List.mem_append, List.mem_singleton, List.mem_cons]
        tauto
      have huniq : uniqueFirst (c :: rest) (acc.map Prod.fst) =
          c :: uniqueFirst rest (c :: acc.map Prod.fst) := by
        simp only [uniqueFirst]; rw [if_neg hc]
      rw [hseen, huniq, List.map_append, List.map_cons, List.append_assoc,
        List.map_cons, List.map_nil, List.singleton_append]
      congr 1
      · refine List.map_congr_left (fun p hp => ?_)
        have hpc : p.1 ≠ c := fun h => hc (h ▸ List.mem_map_of_mem Prod.fst hp)
        simp [List.count_cons, hpc]
      · rw [List.cons.injEq]
        constructor
        · simp [List.count_cons]
          omega
        · refine List.map_congr_left (fun n hn => ?_)
          have hnc : n ≠ c := fun h =>
            ((uniqueFirst_mem rest (c :: acc.map Prod.fst) n).mp hn).2
              (h ▸ List.mem_cons_self c _)
          simp [List.count_cons, hnc]

theorem buildCounts_eq (l : List String) :
    buildCounts l = (uniqueFirst l []).map fun n => (n, l.count n) := by
  unfold buildCounts
  rw [foldl_bump_eq]
  simp

theorem lookup_map_pair (f : String → Nat) :
    ∀ (u : List String) (m : String),
      (u.map fun n => (n, f n)).lookup m = if m ∈ u then some (f m) else none := by
  intro u
  induction u with
  | nil => intro m; simp
  | cons a rest ih =>
    intro m
    by_cases h : m = a
    · subst h
      simp [List.lookup_cons]
    · simp [List.lookup_cons, beq_false_of_ne h, ih m, h]

theorem buildCounts_getD (l : List String) (n : String) :
    ((buildCounts l).lookup n).getD 0 = l.count n := by
  rw [buildCounts_eq, lookup_map_pair]
  by_cases h : n ∈ uniqueFirst l []
  · simp [h]
  · have hnl : n ∉ l := fun hl =>
      h ((uniqueFirst_mem l [] n).mpr ⟨hl, List.not_mem_nil n⟩)
    simp [h, List.count_eq_zero.mpr hnl]

theorem buildCounts_keys (l : List String) :
    (buildCounts l).map Prod.fst = uniqueFirst l [] := by
  rw [buildCounts_eq, List.map_map]
  conv_lhs => rw [show (Prod.fst ∘ fun n => (n, l.count n)) = id from rfl]
  rw [List.map_id]

theorem uniqueFirst_perm_dedup (l : List String) :
    List.Perm (uniqueFirst l []) l.dedup := by
  rw [List.perm_ext_iff_of_nodup (uniqueFirst_nodup l []) l.nodup_dedup]
  intro a
  rw [uniqueFirst_mem]
  simp

theorem sum_counts_uniqueFirst (l : List String) :
    ((uniqueFirst l []).map fun n => l.count n).sum = l.length := by
  rw [List.Perm.sum_eq (List.Perm.map (fun n => l.count n) (uniqueFirst_perm_dedup l))]
  exact List.sum_map_count_dedup_eq_length l

/-- Claim C6: the census over a table's column names is correct.  Looking up
a name yields exactly the number of columns bearing that name (with default
0 when absent); the key sequence lists each distinct name exactly once (no
duplicates, exactly the names occurring in the table), ordered by the index
of the name's first occurrence; and the counts sum to the table's column
count.  The statement holds for zero-column tables and for duplicate or
empty-string names (all names are quantified). -/
theorem claimC6_census (t : Table) :
    (∀ n, ((buildCounts (colNames t)).lookup n).getD 0 = (colNames t).count n)
    ∧ ((buildCounts (colNames t)).map Prod.fst).Nodup
    ∧ (∀ n, n ∈ (buildCounts (colNames t)).map Prod.fst ↔ n ∈ colNames t)
    ∧ ((buildCounts (colNames t)).map Prod.fst).Pairwise
        (fun a b => (colNames t).indexOf a < (colNames t).indexOf b)
    ∧ ((buildCounts (colNames t)).map Prod.snd).sum = t.cols.length := by
  refine ⟨fun n => buildCounts_getD _ n, ?_, ?_, ?_, ?_⟩
  · rw [buildCounts_keys]
    exact uniqueFirst_nodup _ []
  · intro n
    rw [buildCounts_keys, uniqueFirst_mem]
    simp
  · rw [buildCounts_keys]
    exact uniqueFirst_pairwise _ []
  · rw [buildCounts_eq, List.map_map]
    have hcomp : (Prod.snd ∘ fun n => (n, (colNames t).count n)) =
        fun n => (colNames t).count n := rfl
    rw [hcomp, sum_counts_uniqueFirst]
    simp [colNames]

/-! ### Properties of the dot-number stripping -/

theorem stripDotNumber_of_not_ends {s : String}
    (h : endsWithDotNumber s = false) : stripDotNumber s = s := by
  unfold stripDotNumber
  unfold endsWithDotNumber at h
  split
  · rename_i rest heq
    rw [heq] at h
    simp only [Bool.not_eq_false'] at h
    rw [if_pos h]
  · rfl

/-- Claim C5 (amended): one dot-number strip followed by another is the same
as one strip, for every column name whose once-stripped form does not itself
still end in a dot-number suffix.  (The unrestricted claim fails on names
carrying two stacked suffixes, such as `A.1.2`.) -/
theorem claimC5_strip_idempotent_amended (s : String)
    (h : endsWithDotNumber (stripDotNumber s) = false) :
    stripDotNumber (stripDotNumber s) = stripDotNumber s :=
  stripDotNumber_of_not_ends h

/-- Witness for C5 at the concrete name `B.1`. -/
theorem claimC5_witness :
    endsWithDotNumber (stripDotNumber "B.1") = false
    ∧ stripDotNumber (stripDotNumber "B.1") = stripDotNumber "B.1" :=
  ⟨by decide, claimC5_strip_idempotent_amended "B.1" (by decide)⟩

/-- Counterexample to C5 as stated: the name `A.1.2` strips to `A.1` after
one application but to `A` after two, so stripping twice differs from
stripping once. -/
theorem claimC5_counterexample :
    stripDotNumber "A.1.2" = "A.1"
    ∧ stripDotNumber (stripDotNumber "A.1.2") = "A"
    ∧ ("A" : String) ≠ "A.1" := by
  refine ⟨by decide, by decide, by decide⟩

/-! ### Decimal numerals consist of digit characters -/

theorem digitChar_isDigit (k : Nat) (hk : k < 10) :
    (Char.ofNat (48 + k)).isDigit := by
  interval_cases k <;> decide

theorem natCharsFuel_digits :
    ∀ (fuel n : Nat), ∀ c ∈ natCharsFuel fuel n, c.isDigit := by
  intro fuel
  induction fuel with
  | zero =>
    intro n c hc
    rw [natCharsFuel, List.mem_singleton] at hc
    subst hc
    exact digitChar_isDigit _ (Nat.mod_lt _ (by omega))
  | succ fuel ih =>
    intro n c hc
    rw [natCharsFuel] at hc
    by_cases h : n < 10
    · rw [if_pos h, List.mem_singleton] at hc
      subst hc
      exact digitChar_isDigit _ h
    · rw [if_neg h] at hc
      rcases List.mem_append.mp hc with hl | hr
      · exact ih (n / 10) c hl
      · rw [List.mem_singleton] at hr
        subst hr
        exact digitChar_isDigit _ (Nat.mod_lt _ (by omega))

theorem natChars_digits (n : Nat) : ∀ c ∈ natChars n, c.isDigit :=
  natCharsFuel_digits n n

theorem dropWhile_append_all {p : Char → Bool} :
    ∀ (l1 l2 : List Char), (∀ c ∈ l1, p c) →
      List.dropWhile p (l1 ++ l2) = List.dropWhile p l2 := by
  intro l1
  induction l1 with
  | nil => intro l2 _; rfl
  | cons a l ih =>
    intro l2 h
    rw [List.cons_append, List.dropWhile_cons_of_pos (h a (List.mem_cons_self a l))]
    exact ih l2 (fun c hc => h c (List.mem_cons_of_mem a hc))

theorem instSuffix_data (u : String) (i : Nat) :
    (instSuffix u i).data = u.data ++ ('_' :: natChars (i + 1)) := by
  unfold instSuffix natStr
  rw [String.data_append, String.data_append, List.append_assoc]
  rfl

/-- An underscore-suffixed instance name never ends in a dot-number group:
the digits of the index are preceded by `_`, not by `.`. -/
theorem endsWithDotNumber_instSuffix (u : String) (i : Nat) :
    endsWithDotNumber (instSuffix u i) = false := by
  unfold endsWithDotNumber
  rw [instSuffix_data, List.reverse_append, List.reverse_cons, List.append_assoc,
    dropWhile_append_all _ _
      (fun c hc => natChars_digits (i + 1) c (List.mem_reverse.mp hc)),
    List.singleton_append, List.dropWhile_cons_of_neg (by decide)]
  rfl

theorem stripDotNumber_instSuffix (u : String) (i : Nat) :
    stripDotNumber (instSuffix u i) = instSuffix u i :=
  stripDotNumber_of_not_ends (endsWithDotNumber_instSuffix u i)

/-! ### Structure of assignment runs -/

theorem putCol_names (nr : Nat) (cols : List (String × List Cell))
    (name : String) (s : List Cell) :
    (putCol nr cols name s).cols.map Prod.fst = setName (cols.map Prod.fst) name := by
  unfold putCol setName
  split
  · rw [List.map_map]
    refine List.map_congr_left (fun p _ => ?_)
    by_cases hp : p.1 = name <;> simp [hp]
  · simp

theorem setCol_names (df : Table) (n : String) (s : List Cell) :
    (setCol df n s).cols.map Prod.fst = setName (df.cols.map Prod.fst) n := by
  unfold setCol
  split
  · rw [putCol_names]
    congr 1
    rw [List.map_map]
    exact List.map_congr_left (fun p _ => rfl)
  · exact putCol_names _ _ _ _

theorem setCol_nrows (df : Table) (n : String) (s : List Cell) :
    (setCol df n s).nrows =
      if df.nrows = 0 ∧ s ≠ [] then s.length else df.nrows := by
  unfold setCol putCol
  split <;> split <;> rfl

theorem foldAssign_names :
    ∀ (as : List (String × List Cell)) (df : Table),
      ((as.foldl (fun d p => setCol d p.1 p.2) df).cols.map Prod.fst) =
        (as.map Prod.fst).foldl setName (df.cols.map Prod.fst) := by
  intro as
  induction as with
  | nil => intro df; rfl
  | cons a rest ih =>
    intro df
    rw [List.foldl_cons, List.map_cons, List.foldl_cons, ih, setCol_names]

/-- An assignment run whose frame already has the settled row count `N`
keeps it, provided every assigned series is empty or of length `N`. -/
theorem foldAssign_nrows_keep :
    ∀ (as : List (String × List Cell)) (df : Table) (N : Nat),
      df.nrows = N → (∀ p ∈ as, p.2 = [] ∨ p.2.length = N) →
      (as.foldl (fun d p => setCol d p.1 p.2) df).nrows = N := by
  intro as
  induction as with
  | nil => intro df N hdf _; exact hdf
  | cons a rest ih =>
    intro df N hdf hall
    rw [List.foldl_cons]
    refine ih _ N ?_ (fun p hp => hall p (List.mem_cons_of_mem a hp))
    rw [setCol_nrows]
    split
    · rename_i hcond
      rcases hall a (List.mem_cons_self a rest) with h | h
      · exact absurd h hcond.2
      · omega
    · exact hdf

/-- An assignment run preserves membership of the row count in
`{0, N}`, provided every assigned series is empty or of length `N`. -/
theorem foldAssign_nrows_inv :
    ∀ (as : List (String × List Cell)) (df : Table) (N : Nat),
      (df.nrows = 0 ∨ df.nrows = N) →
      (∀ p ∈ as, p.2 = [] ∨ p.2.length = N) →
      ((as.foldl (fun d p => setCol d p.1 p.2) df).nrows = 0
        ∨ (as.foldl (fun d p => setCol d p.1 p.2) df).nrows = N) := by
  intro as
  induction as with
  | nil => intro df N hdf _; exact hdf
  | cons a rest ih =>
    intro df N hdf hall
    rw [List.foldl_cons]
    refine ih _ N ?_ (fun p hp => hall p (List.mem_cons_of_mem a hp))
    rw [setCol_nrows]
    split
    · rename_i hcond
      rcases hall a (List.mem_cons_self a rest) with h | h
      · exact absurd h hcond.2
      · exact Or.inr h
    · exact hdf

/-- An assignment run whose first series carries `N` rows (and whose
remaining series are all empty) settles the frame's row count at `N`. -/
theorem foldAssign_head_data (a : String × List Cell)
    (rest : List (String × List Cell)) (df : Table) (N : Nat)
    (hdf : df.nrows = 0 ∨ df.nrows = N) (ha : a.2.length = N)
    (hrest : ∀ p ∈ rest, p.2 = []) :
    ((a :: rest).foldl (fun d p => setCol d p.1 p.2) df).nrows = N := by
  rw [List.foldl_cons]
  refine foldAssign_nrows_keep rest _ N ?_ (fun p hp => Or.inl (hrest p hp))
  rw [setCol_nrows]
  split
  · exact ha
  · rename_i hcond
    by_cases h0 : df.nrows = 0
    · have hae : a.2 = [] := by
        by_contra hne
        exact hcond ⟨h0, hne⟩
      have : N = 0 := by rw [← ha, hae]; rfl
      omega
    · exact hdf.resolve_left h0

theorem filter_eq_of_nodup :
    ∀ (cols : List (String × List Cell)), (cols.map Prod.fst).Nodup → ∀ col,
      cols.filter (fun p => p.1 = col) = []
      ∨ ∃ m, cols.filter (fun p => p.1 = col) = [m] ∧ m ∈ cols ∧ m.1 = col := by
  intro cols
  induction cols with
  | nil => intro _ col; left; rfl
  | cons a rest ih =>
    intro hnd col
    rw [List.map_cons, List.nodup_cons] at hnd
    by_cases ha : a.1 = col
    · right
      refine ⟨a, ?_, List.mem_cons_self a rest, ha⟩
      rw [List.filter_cons_of_pos (by simp [ha])]
      have hrest : rest.filter (fun p => p.1 = col) = [] := by
        rw [List.filter_eq_nil_iff]
        intro p hp
        simp only [decide_eq_true_eq]
        intro hcol
        exact hnd.1 (by
          have := List.mem_map_of_mem Prod.fst hp
          rwa [hcol, ← ha] at this)
      rw [hrest]
    · rw [List.filter_cons_of_neg (by simp [ha])]
      rcases ih hnd.2 col with h | ⟨m, hm, hmem, hcol⟩
      · exact Or.inl h
      · exact Or.inr ⟨m, hm, List.mem_cons_of_mem a hmem, hcol⟩

theorem colAssignments_names {baseCols : List String} {target : Table}
    {col : String} {as : List (String × List Cell)}
    (h : colAssignments baseCols target col = some as) :
    as.map Prod.fst = expandName baseCols col := by
  simp only [colAssignments, buildCounts_getD] at h
  unfold expandName
  split at h
  · injection h with h'
    subst h'
    by_cases hreq : baseCols.count col = 1 <;> simp [hreq, List.map_map]
  · injection h with h'
    subst h'
    by_cases hreq : baseCols.count col = 1 <;> simp [hreq, List.map_map]
  · exact Option.noConfusion h

theorem colAssignments_data {baseCols : List String} {target : Table}
    {col : String} {as : List (String × List Cell)}
    (h : colAssignments baseCols target col = some as) :
    ∀ p ∈ as, p.2 = [] ∨ ∃ m ∈ target.cols, p.2 = m.2 := by
  simp only [colAssignments, buildCounts_getD] at h
  split at h
  · injection h with h'
    subst h'
    intro p hp
    left
    by_cases hreq : baseCols.count col = 1
    · rw [if_pos hreq] at hp
      rw [List.mem_singleton] at hp
      subst hp
      rfl
    · rw [if_neg hreq] at hp
      obtain ⟨i, _, rfl⟩ := List.mem_map.mp hp
      rfl
  · rename_i m heq
    have hmem : m ∈ target.cols := by
      have : m ∈ target.cols.filter (fun p => p.1 = col) := by
        rw [heq]; exact List.mem_singleton_self m
      exact (List.mem_filter.mp this).1
    injection h with h'
    subst h'
    intro p hp
    by_cases hreq : baseCols.count col = 1
    · rw [if_pos hreq] at hp
      rw [List.mem_singleton] at hp
      subst hp
      exact Or.inr ⟨m, hmem, rfl⟩
    · rw [if_neg hreq] at hp
      obtain ⟨i, _, rfl⟩ := List.mem_map.mp hp
      by_cases hi : i = 0
      · exact Or.inr ⟨m, hmem, by simp [hi]⟩
      · exact Or.inl (by simp [hi])
  · exact Option.noConfusion h

theorem colAssignments_some {baseCols : List String} {target : Table}
    (hnd : (colNames target).Nodup) (col : String) :
    ∃ as, colAssignments baseCols target col = some as := by
  simp only [colAssignments]
  rcases filter_eq_of_nodup target.cols hnd col with h | ⟨m, hm, _, _⟩
  · rw [h]
    exact ⟨_, rfl⟩
  · rw [hm]
    exact ⟨_, rfl⟩

theorem colAssignments_data_len {baseCols : List String} {target : Table}
    {col : String} {as : List (String × List Cell)}
    (hW : WFTable target) (h : colAssignments baseCols target col = some as) :
    ∀ p ∈ as, p.2 = [] ∨ p.2.length = target.nrows := by
  intro p hp
  rcases colAssignments_data h p hp with h1 | ⟨m, hm, hdm⟩
  · exact Or.inl h1
  · exact Or.inr (by rw [hdm]; exact hW m hm)

theorem processCol_names {baseCols : List String} {target df out : Table}
    {col : String} (h : processCol baseCols target df col = some out) :
    out.cols.map Prod.fst =
      (expandName baseCols col).foldl setName (df.cols.map Prod.fst) := by
  unfold processCol at h
  cases has : colAssignments baseCols target col with
  | none => rw [has] at h; exact Option.noConfusion h
  | some as =>
    rw [has] at h
    injection h with h'
    subst h'
    rw [← colAssignments_names has]
    exact foldAssign_names as df

theorem processCol_nrows_keep {baseCols : List String} {target df out : Table}
    {col : String} (hW : WFTable target) (hn : df.nrows = target.nrows)
    (h : processCol baseCols target df col = some out) :
    out.nrows = target.nrows := by
  unfold processCol at h
  cases has : colAssignments baseCols target col with
  | none => rw [has] at h; exact Option.noConfusion h
  | some as =>
    rw [has] at h
    injection h with h'
    subst h'
    exact foldAssign_nrows_keep as df target.nrows hn
      (colAssignments_data_len hW has)

theorem processCol_nrows_inv {baseCols : List String} {target df out : Table}
    {col : String} (hW : WFTable target)
    (hn : df.nrows = 0 ∨ df.nrows = target.nrows)
    (h : processCol baseCols target df col = some out) :
    out.nrows = 0 ∨ out.nrows = target.nrows := by
  unfold processCol at h
  cases has : colAssignments baseCols target col with
  | none => rw [has] at h; exact Option.noConfusion h
  | some as =>
    rw [has] at h
    injection h with h'
    subst h'
    exact foldAssign_nrows_inv as df target.nrows hn
      (colAssignments_data_len hW has)

/-- Processing a reference name that is present in the target settles the
frame's row count at the target's: either the frame already carries it, or
it is still empty and the data assignment expands it (GH5632). -/
theorem processCol_nrows_hit {baseCols : List String} {target df out : Table}
    {col : String} (hW : WFTable target) (hnd : (colNames target).Nodup)
    (hn : df.nrows = 0 ∨ df.nrows = target.nrows)
    (hcol : col ∈ baseCols) (hpres : col ∈ colNames target)
    (h : processCol baseCols target df col = some out) :
    out.nrows = target.nrows := by
  rcases filter_eq_of_nodup target.cols hnd col with hflt | ⟨m, hflt, hmmem, _⟩
  · exfalso
    obtain ⟨p, hp, hpcol⟩ := List.mem_map.mp hpres
    have : p ∈ target.cols.filter (fun q => q.1 = col) :=
      List.mem_filter.mpr ⟨hp, by simp [hpcol]⟩
    rw [hflt] at this
    exact List.not_mem_nil p this
  · have hlen : m.2.length = target.nrows := hW m hmmem
    have has : colAssignments baseCols target col =
        some (if baseCols.count col = 1 then [(col, m.2)]
          else (List.range (baseCols.count col)).map
            fun i => (instSuffix col i, if i = 0 then m.2 else [])) := by
      simp only [colAssignments, buildCounts_getD]
      rw [hflt]
    unfold processCol at h
    rw [has] at h
    injection h with h'
    subst h'
    have hcnt : baseCols.count col ≠ 0 :=
      fun hz => (List.count_eq_zero.mp hz) hcol
    by_cases hreq : baseCols.count col = 1
    · rw [if_pos hreq]
      exact foldAssign_head_data (col, m.2) [] df _ hn hlen (by simp)
    · rw [if_neg hreq]
      obtain ⟨r, hr⟩ : ∃ r, baseCols.count col = r + 1 :=
        ⟨baseCols.count col - 1, by omega⟩
      rw [hr, List.range_succ_eq_map, List.map_cons, List.map_map]
      refine foldAssign_head_data (instSuffix col 0, m.2) _ df _ hn
        (by simpa using hlen) ?_
      intro p hp
      obtain ⟨i, _, rfl⟩ := List.mem_map.mp hp
      rfl

/-- Under duplicate-free target labels every reference name processes
without raising, so the whole fold completes. -/
theorem foldProcess_some {baseCols : List String} {target : Table}
    (hnd : (colNames target).Nodup) :
    ∀ (cs : List String) (df : Table),
      ∃ out, cs.foldlM (processCol baseCols target) df = some out := by
  intro cs
  induction cs with
  | nil => intro df; exact ⟨df, rfl⟩
  | cons c rest ih =>
    intro df
    obtain ⟨as, has⟩ := colAssignments_some hnd c
    have hmid : processCol baseCols target df c =
        some (as.foldl (fun d p => setCol d p.1 p.2) df) := by
      unfold processCol
      rw [has]
    obtain ⟨out, hout⟩ := ih (as.foldl (fun d p => setCol d p.1 p.2) df)
    exact ⟨out, by rw [List.foldlM_cons, hmid]; simpa using hout⟩

theorem foldProcess_nrows_keep {baseCols : List String} {target : Table}
    (hW : WFTable target) :
    ∀ (cs : List String) (df out : Table), df.nrows = target.nrows →
      cs.foldlM (processCol baseCols target) df = some out →
      out.nrows = target.nrows := by
  intro cs
  induction cs with
  | nil =>
    intro df out hdf h
    simp only [List.foldlM_nil] at h
    injection h with h'
    subst h'
    exact hdf
  | cons c rest ih =>
    intro df out hdf h
    rw [List.foldlM_cons] at h
    cases hmid : processCol baseCols target df c with
    | none => rw [hmid] at h; exact Option.noConfusion h
    | some mid =>
      rw [hmid] at h
      exact ih mid out (processCol_nrows_keep hW hdf hmid) h

/-- Once any name that is both a reference name and a target name has been
processed, the output row count equals the target's. -/
theorem foldProcess_nrows_hit {baseCols : List String} {target : Table}
    (hW : WFTable target) (hnd : (colNames target).Nodup) :
    ∀ (cs : List String) (df out : Table) (u : String),
      (df.nrows = 0 ∨ df.nrows = target.nrows) →
      u ∈ cs → u ∈ baseCols → u ∈ colNames target →
      cs.foldlM (processCol baseCols target) df = some out →
      out.nrows = target.nrows := by
  intro cs
  induction cs with
  | nil => intro df out u _ hu _ _ _; exact absurd hu (List.not_mem_nil u)
  | cons c rest ih =>
    intro df out u hdf hu hub hut h
    rw [List.foldlM_cons] at h
    cases hmid : processCol baseCols target df c with
    | none => rw [hmid] at h; exact Option.noConfusion h
    | some mid =>
      rw [hmid] at h
      by_cases huc : u = c
      · subst huc
        exact foldProcess_nrows_keep hW rest mid out
          (processCol_nrows_hit hW hnd hdf hub hut hmid) h
      · exact ih mid out u (processCol_nrows_inv hW hdf hmid)
          ((List.mem_cons.mp hu).resolve_left huc) hub hut h

theorem foldProcess_names {baseCols : List String} {target : Table} :
    ∀ (cs : List String) (df out : Table),
      cs.foldlM (processCol baseCols target) df = some out →
      out.cols.map Prod.fst =
        (cs.flatMap (expandName baseCols)).foldl setName
          (df.cols.map Prod.fst) := by
  intro cs
  induction cs with
  | nil =>
    intro df out h
    simp only [List.foldlM_nil] at h
    injection h with h'
    subst h'
    rfl
  | cons c rest ih =>
    intro df out h
    rw [List.foldlM_cons] at h
    cases hmid : processCol baseCols target df c with
    | none => rw [hmid] at h; exact Option.noConfusion h
    | some mid =>
      rw [hmid] at h
      rw [List.flatMap_cons, List.foldl_append, ← processCol_names hmid]
      exact ih mid out h

theorem standardizeDF_names {base target out : Table}
    (h : standardizeDF base target = some out) :
    out.cols.map Prod.fst =
      (expandedNames (colNames base)).foldl setName [] := by
  unfold standardizeDF at h
  have := foldProcess_names _ _ _ h
  simpa [expandedNames] using this

theorem mem_foldl_setName :
    ∀ (l ns : List String) (x : String),
      x ∈ l.foldl setName ns → x ∈ ns ∨ x ∈ l := by
  intro l
  induction l with
  | nil => intro ns x h; exact Or.inl h
  | cons c rest ih =>
    intro ns x h
    rw [List.foldl_cons] at h
    rcases ih _ x h with hx | hx
    · unfold setName at hx
      split at hx
      · exact Or.inl hx
      · rcases List.mem_append.mp hx with hx | hx
        · exact Or.inl hx
        · exact Or.inr (by simp at hx; simp [hx])
    · exact Or.inr (List.mem_cons_of_mem c hx)

theorem foldl_setName_nodup :
    ∀ (l ns : List String), l.Nodup → (∀ x ∈ l, x ∉ ns) →
      l.foldl setName ns = ns ++ l := by
  intro l
  induction l with
  | nil => intro ns _ _; simp
  | cons c rest ih =>
    intro ns hnd hdis
    rw [List.nodup_cons] at hnd
    rw [List.foldl_cons]
    have hstep : setName ns c = ns ++ [c] := by
      unfold setName
      rw [if_neg (hdis c (List.mem_cons_self c rest))]
    rw [hstep, ih (ns ++ [c]) hnd.2 ?_]
    · rw [List.append_assoc, List.singleton_append]
    · intro x hx
      rw [List.mem_append, List.mem_singleton]
      rintro (hxns | hxc)
      · exact hdis x (List.mem_cons_of_mem c hx) hxns
      · exact hnd.1 (hxc ▸ hx)

theorem expandName_length (baseCols : List String) (col : String) :
    (expandName baseCols col).length = baseCols.count col := by
  unfold expandName
  by_cases h : baseCols.count col = 1 <;> simp [h]

theorem expandedNames_length (baseCols : List String) :
    (expandedNames baseCols).length = baseCols.length := by
  unfold expandedNames
  rw [List.length_flatMap]
  have hmap : (uniqueFirst baseCols []).map (List.length ∘ expandName baseCols)
      = (uniqueFirst baseCols []).map fun c => baseCols.count c :=
    List.map_congr_left (fun c _ => expandName_length baseCols c)
  rw [hmap, sum_counts_uniqueFirst]

theorem mem_expandName {baseCols : List String} {col n : String}
    (h : n ∈ expandName baseCols col) :
    (baseCols.count col = 1 ∧ n = col)
    ∨ (baseCols.count col ≠ 1 ∧ ∃ i < baseCols.count col, n = instSuffix col i) := by
  unfold expandName at h
  by_cases hreq : baseCols.count col = 1
  · rw [if_pos hreq, List.mem_singleton] at h
    exact Or.inl ⟨hreq, h⟩
  · rw [if_neg hreq] at h
    obtain ⟨i, hi, rfl⟩ := List.mem_map.mp h
    exact Or.inr ⟨hreq, i, List.mem_range.mp hi, rfl⟩

theorem buildCounts_lookup (l : List String) (n : String) :
    (buildCounts l).lookup n = if n ∈ l then some (l.count n) else none := by
  rw [buildCounts_eq, lookup_map_pair]
  by_cases h : n ∈ l
  · rw [if_pos ((uniqueFirst_mem l [] n).mpr ⟨h, List.not_mem_nil n⟩), if_pos h]
  · rw [if_neg (fun hm => h ((uniqueFirst_mem l [] n).mp hm).1), if_neg h]

theorem removeColumnNumbering_names (t : Table) :
    (removeColumnNumbering t).cols.map Prod.fst =
      (t.cols.map Prod.fst).map stripDotNumber := by
  unfold removeColumnNumbering
  simp [List.map_map, Function.comp_def]

/-- Under duplicate-free target labels the whole reconciliation completes
and persists an output table. -/
theorem standardize_completes {base target : Table}
    (hnd : (colNames target).Nodup) :
    ∃ out, standardizeTable base target = some out := by
  obtain ⟨out0, h0⟩ :=
    @foldProcess_some (colNames base) target hnd
      (uniqueFirst (colNames base) []) ⟨0, []⟩
  refine ⟨removeColumnNumbering out0, ?_⟩
  unfold standardizeTable standardizeDF
  rw [h0]
  rfl

/-- Claim C2 (amended): the output table's row count equals the target's
whenever at least one reference name occurs among the target's column
names (given a well-formed target with duplicate-free names): the first
assignment of that name's data expands the frame's empty index (GH5632)
and every later assignment aligns to it.  The unrestricted claim fails:
when no reference name occurs in the target, every assigned series is
empty, the frame's index never grows, and the persisted output has zero
rows regardless of the target's row count (counterexample below). -/
theorem claimC2_rowcount_amended {base target : Table}
    (hW : WFTable target) (hnd : (colNames target).Nodup)
    (hpres : ∃ u, u ∈ colNames base ∧ u ∈ colNames target) :
    ∃ out, standardizeTable base target = some out
      ∧ out.nrows = target.nrows := by
  obtain ⟨u, hub, hut⟩ := hpres
  obtain ⟨out0, h0⟩ :=
    @foldProcess_some (colNames base) target hnd
      (uniqueFirst (colNames base) []) ⟨0, []⟩
  have hu : u ∈ uniqueFirst (colNames base) [] :=
    (uniqueFirst_mem _ [] u).mpr ⟨hub, List.not_mem_nil u⟩
  have hn : out0.nrows = target.nrows :=
    foldProcess_nrows_hit hW hnd _ _ out0 u (Or.inl rfl) hu hub hut h0
  refine ⟨removeColumnNumbering out0, ?_, hn⟩
  unfold standardizeTable standardizeDF
  rw [h0]
  rfl

/-- Witness for C2: reference `[A, B]`, target holding only a one-row `B`
column.  The missing `A` is processed first over the empty frame; the later
`B` data assignment expands the index (GH5632), and the saved output has
the target's one row. -/
theorem claimC2_witness :
    ∃ out, standardizeTable ⟨1, [("A", [some "a"]), ("B", [some "b"])]⟩
        ⟨1, [("B", [some "x"])]⟩ = some out
      ∧ out.nrows = 1 :=
  claimC2_rowcount_amended (by decide) (by decide) ⟨"B", by decide, by decide⟩

/-- Counterexample to C2 as stated: reference `[A]`, target a one-row
table whose only column is `B`.  The reference name `A` is missing, the
empty column is created over an empty index, and the persisted output has
zero rows while the target has one. -/
theorem claimC2_counterexample :
    (standardizeTable ⟨1, [("A", [some "a"])]⟩
        ⟨1, [("B", [some "b"])]⟩).map Table.nrows = some 0
    ∧ (⟨1, [("B", [some "b"])]⟩ : Table).nrows = 1
    ∧ (0 : Nat) ≠ 1 :=
  ⟨by decide, by decide, by decide⟩

/-- Claim C7 (amended): a warning triple `(name, required, found)` is
collected exactly when `name` is a reference name whose exact-name instance
count in the target falls short of the reference count; the warnings are
data, not exceptions.  However reconciliation does not always complete with
empty-column padding: it completes (and an output table is persisted)
whenever the target's column labels are duplicate-free, but when a
reference name labels two or more target columns the data access yields a
multi-column selection whose assignment raises, aborting the run with no
output — missing instances included. -/
theorem claimC7_warnings_amended (base target : Table)
    (hnd : (colNames target).Nodup) :
    (∀ n r f, (n, r, f) ∈ missingInstances base target ↔
      (n ∈ colNames base ∧ r = (colNames base).count n
        ∧ f = (colNames target).count n ∧ f < r))
    ∧ ∃ out, standardizeTable base target = some out := by
  constructor
  · intro n r f
    unfold missingInstances
    rw [List.mem_filterMap]
    constructor
    · rintro ⟨p, hp, hgp⟩
      rw [buildCounts_eq] at hp
      obtain ⟨u, hu, rfl⟩ := List.mem_map.mp hp
      dsimp only at hgp
      rw [buildCounts_lookup] at hgp
      have hub : u ∈ colNames base := ((uniqueFirst_mem _ [] u).mp hu).1
      by_cases hut : u ∈ colNames target
      · rw [if_pos hut] at hgp
        dsimp only at hgp
        split at hgp
        · rename_i hcond
          injection hgp with h'
          rw [Prod.mk.injEq, Prod.mk.injEq] at h'
          obtain ⟨rfl, rfl, rfl⟩ := h'
          exact ⟨hub, rfl, rfl, hcond⟩
        · exact Option.noConfusion hgp
      · rw [if_neg hut] at hgp
        dsimp only at hgp
        injection hgp with h'
        rw [Prod.mk.injEq, Prod.mk.injEq] at h'
        obtain ⟨rfl, rfl, rfl⟩ := h'
        have hz : (colNames target).count u = 0 := List.count_eq_zero.mpr hut
        have hpos : (colNames base).count u ≠ 0 :=
          fun h0 => (List.count_eq_zero.mp h0) hub
        exact ⟨hub, rfl, hz.symm, by omega⟩
    · rintro ⟨hmem, rfl, rfl, hlt⟩
      refine ⟨(n, (colNames base).count n), ?_, ?_⟩
      · rw [buildCounts_eq]
        exact List.mem_map_of_mem _
          ((uniqueFirst_mem _ [] n).mpr ⟨hmem, List.not_mem_nil n⟩)
      · dsimp only
        rw [buildCounts_lookup]
        by_cases hnt : n ∈ colNames target
        · rw [if_pos hnt]
          dsimp only
          rw [if_pos hlt]
        · rw [if_neg hnt]
          dsimp only
          rw [List.count_eq_zero.mpr hnt]
  · exact standardize_completes hnd

/-- Witness for C7: reference `[M, N]`, target with only a one-row `M`.
The warning `(N, 1, 0)` is collected and an output is still produced. -/
theorem claimC7_witness :
    ("N", 1, 0) ∈ missingInstances ⟨1, [("M", [some "m"]), ("N", [some "n"])]⟩
        ⟨1, [("M", [some "v"])]⟩
    ∧ standardizeTable ⟨1, [("M", [some "m"]), ("N", [some "n"])]⟩
        ⟨1, [("M", [some "v"])]⟩ ≠ none := by
  have h := claimC7_warnings_amended
    ⟨1, [("M", [some "m"]), ("N", [some "n"])]⟩ ⟨1, [("M", [some "v"])]⟩
    (by decide)
  refine ⟨(h.1 "N" 1 0).mpr (by refine ⟨by decide, by decide, by decide, by decide⟩), ?_⟩
  obtain ⟨out, hout⟩ := h.2
  rw [hout]
  exact Option.noConfusion

/-- Counterexample to C7 as stated: reference `[X, X, X]`, target with two
`X` columns.  The shortfall warning `(X, 3, 2)` is collected, but instead
of padding the third instance with an empty column, the run aborts (the
duplicate-labelled access raises) and no output is produced. -/
theorem claimC7_counterexample :
    missingInstances ⟨1, [("X", [some "a"]), ("X", [some "b"]), ("X", [some "c"])]⟩
        ⟨1, [("X", [some "p"]), ("X", [some "q"])]⟩ = [("X", 3, 2)]
    ∧ standardizeTable ⟨1, [("X", [some "a"]), ("X", [some "b"]), ("X", [some "c"])]⟩
        ⟨1, [("X", [some "p"]), ("X", [some "q"])]⟩ = none :=
  ⟨by decide, by decide⟩

/-- Claim C10: the reconciliation core is deterministic — equal reference
and target tables yield identical output tables and identical warning
sequences (the embedded core is a pure function of its two arguments). -/
theorem claimC10_deterministic (b1 t1 b2 t2 : Table)
    (hb : b1 = b2) (ht : t1 = t2) :
    standardizeTable b1 t1 = standardizeTable b2 t2
    ∧ missingInstances b1 t1 = missingInstances b2 t2 := by
  subst hb
  subst ht
  exact ⟨rfl, rfl⟩

/-- Witness for C10 at a concrete pair of runs. -/
theorem claimC10_witness :
    standardizeTable ⟨1, [("A", [some "x"])]⟩ ⟨1, [("A", [some "y"])]⟩
        = standardizeTable ⟨1, [("A", [some "x"])]⟩ ⟨1, [("A", [some "y"])]⟩
    ∧ missingInstances ⟨1, [("A", [some "x"])]⟩ ⟨1, [("A", [some "y"])]⟩
        = missingInstances ⟨1, [("A", [some "x"])]⟩ ⟨1, [("A", [some "y"])]⟩ :=
  claimC10_deterministic _ _ _ _ rfl rfl

/-- Claim C1 (amended): the persisted output never carries the input
`.<n>` dot-number suffix — each final name is the once-stripped form of its
generating name — but multi-instance reference names are NOT reduced to the
bare name: every output column name comes from a reference name `u` either
as `stripDotNumber u` when `u` is required once, or as the underscore form
`u_<i+1>` (which the final strip leaves untouched) when `u` is required two
or more times.  Instances are therefore distinguished by the `_<n>` suffix,
not only by position. -/
theorem claimC1_suffixes_amended {base target out : Table}
    (h : standardizeTable base target = some out) :
    ∀ n ∈ out.cols.map Prod.fst, ∃ u ∈ colNames base,
      ((colNames base).count u = 1 ∧ n = stripDotNumber u)
      ∨ (2 ≤ (colNames base).count u
          ∧ ∃ i < (colNames base).count u, n = instSuffix u i) := by
  unfold standardizeTable at h
  cases h0 : standardizeDF base target with
  | none => rw [h0] at h; exact Option.noConfusion h
  | some out0 =>
    rw [h0] at h
    injection h with h'
    subst h'
    intro n hn
    rw [removeColumnNumbering_names] at hn
    obtain ⟨n0, hn0, rfl⟩ := List.mem_map.mp hn
    have hnames := standardizeDF_names h0
    rw [hnames] at hn0
    rcases mem_foldl_setName _ _ _ hn0 with habs | hmem
    · exact absurd habs (List.not_mem_nil n0)
    · unfold expandedNames at hmem
      obtain ⟨u, hu, hin⟩ := List.mem_flatMap.mp hmem
      have hubase : u ∈ colNames base := ((uniqueFirst_mem _ [] u).mp hu).1
      rcases mem_expandName hin with ⟨h1, hx⟩ | ⟨hne, i, hi, hx⟩
      · exact ⟨u, hubase, Or.inl ⟨h1, by rw [hx]⟩⟩
      · refine ⟨u, hubase, Or.inr ⟨?_, i, hi, by
          rw [hx]; exact stripDotNumber_instSuffix u i⟩⟩
        have hpos : (colNames base).count u ≠ 0 :=
          fun h0 => (List.count_eq_zero.mp h0) hubase
        omega

/-- Witness for C1: reference `[B, B]`, target with columns `B`, `C`.  The
run succeeds and the output name `B_1` is accounted for by the amended
characterisation. -/
theorem claimC1_witness :
    standardizeTable ⟨1, [("B", [some "p"]), ("B", [some "q"])]⟩
        ⟨1, [("B", [some "x"]), ("C", [some "y"])]⟩
      = some ⟨1, [("B_1", [some "x"]), ("B_2", [none])]⟩
    ∧ ∃ u ∈ colNames ⟨1, [("B", [some "p"]), ("B", [some "q"])]⟩,
      ((colNames ⟨1, [("B", [some "p"]), ("B", [some "q"])]⟩).count u = 1
        ∧ "B_1" = stripDotNumber u)
      ∨ (2 ≤ (colNames ⟨1, [("B", [some "p"]), ("B", [some "q"])]⟩).count u
          ∧ ∃ i < (colNames ⟨1, [("B", [some "p"]), ("B", [some "q"])]⟩).count u,
            "B_1" = instSuffix u i) :=
  ⟨by decide, @claimC1_suffixes_amended
    ⟨1, [("B", [some "p"]), ("B", [some "q"])]⟩
    ⟨1, [("B", [some "x"]), ("C", [some "y"])]⟩
    ⟨1, [("B_1", [some "x"]), ("B_2", [none])]⟩
    (by decide) "B_1" (by decide)⟩

/-- Counterexample to C1 as stated: reference `[B, B]` (required count 2),
target with a single `B` column.  The persisted output columns are named
`B_1` and `B_2` — the transiently introduced underscore suffix is NOT
removed by the final stripping step (which only removes `.` + digits) — so
the output does not consist of two columns both named `B`. -/
theorem claimC1_counterexample :
    (standardizeTable ⟨1, [("B", [some "p"]), ("B", [some "q"])]⟩
        ⟨1, [("B", [some "x"]), ("D", [some "y"])]⟩).map
          (fun t => t.cols.map Prod.fst) = some ["B_1", "B_2"]
    ∧ ("B_1" : String) ≠ "B" ∧ ("B_2" : String) ≠ "B" :=
  ⟨by decide, by decide, by decide⟩

/-- Claim C3 (amended): whenever the run completes and no generated
instance name collides with another generated name (the expanded reference
name list is duplicate-free), the output column count equals the reference
column count.  The unrestricted claim fails both when a reference name
equals another reference name's `_<i>` instance name (the later assignment
overwrites the earlier column instead of appending) and when the run
aborts producing no output at all. -/
theorem claimC3_colcount_amended {base target out : Table}
    (h : standardizeTable base target = some out)
    (hnd : (expandedNames (colNames base)).Nodup) :
    out.cols.length = base.cols.length := by
  unfold standardizeTable at h
  cases h0 : standardizeDF base target with
  | none => rw [h0] at h; exact Option.noConfusion h
  | some out0 =>
    rw [h0] at h
    injection h with h'
    subst h'
    have hnames := standardizeDF_names h0
    rw [foldl_setName_nodup _ [] hnd (fun x _ => List.not_mem_nil x),
      List.nil_append] at hnames
    have h1 : (removeColumnNumbering out0).cols.length = out0.cols.length := by
      unfold removeColumnNumbering
      simp
    have h2 : out0.cols.length = (expandedNames (colNames base)).length := by
      rw [← hnames, List.length_map]
    rw [h1, h2, expandedNames_length]
    simp [colNames]

/-- Witness for C3: reference `[A, B, B]`, target with `A` and one `B`; the
output has exactly three columns. -/
theorem claimC3_witness :
    standardizeTable ⟨1, [("A", [some "1"]), ("B", [some "2"]), ("B", [some "3"])]⟩
        ⟨1, [("A", [some "x"]), ("B", [some "y"])]⟩
      = some ⟨1, [("A", [some "x"]), ("B_1", [some "y"]), ("B_2", [none])]⟩
    ∧ (some ⟨1, [("A", [some "x"]), ("B_1", [some "y"]), ("B_2", [none])]⟩ :
        Option Table).map (fun t => t.cols.length) = some 3 := by
  have hthm := @claimC3_colcount_amended
    ⟨1, [("A", [some "1"]), ("B", [some "2"]), ("B", [some "3"])]⟩
    ⟨1, [("A", [some "x"]), ("B", [some "y"])]⟩
    ⟨1, [("A", [some "x"]), ("B_1", [some "y"]), ("B_2", [none])]⟩
    (by decide) (by decide)
  exact ⟨by decide, congrArg some (hthm.trans (by decide))⟩

/-- Counterexample to C3 as stated: reference `[A, A, A_1]` (three
columns), target with an unrelated column `Z`.  The instance name `A_1`
generated for the duplicated name `A` collides with the genuine reference
name `A_1`; the later assignment overwrites it, and the persisted output
has two columns, not three. -/
theorem claimC3_counterexample :
    (standardizeTable
        ⟨1, [("A", [some "a"]), ("A", [some "b"]), ("A_1", [some "c"])]⟩
        ⟨1, [("Z", [some "z"])]⟩).map (fun t => t.cols.length) = some 2
    ∧ (⟨1, [("A", [some "a"]), ("A", [some "b"]), ("A_1", [some "c"])]⟩ :
        Table).cols.length = 3
    ∧ (2 : Nat) ≠ 3 :=
  ⟨by decide, by decide, by decide⟩

/-- Claim C4 (amended): whenever the run completes and the expanded
reference name list is duplicate-free, the output column sequence is
exactly the reference's first-occurrence order of distinct names, each
expanded into its required instance positions — rendered as the bare
(dot-stripped) name for single-instance names and as `name_1 … name_k` for
multi-instance names.  The right-hand side depends only on the reference,
so the order is independent of the target's column order. -/
theorem claimC4_order_amended {base target out : Table}
    (h : standardizeTable base target = some out)
    (hnd : (expandedNames (colNames base)).Nodup) :
    out.cols.map Prod.fst = (expandedNames (colNames base)).map stripDotNumber := by
  unfold standardizeTable at h
  cases h0 : standardizeDF base target with
  | none => rw [h0] at h; exact Option.noConfusion h
  | some out0 =>
    rw [h0] at h
    injection h with h'
    subst h'
    have hnames := standardizeDF_names h0
    rw [foldl_setName_nodup _ [] hnd (fun x _ => List.not_mem_nil x),
      List.nil_append] at hnames
    rw [removeColumnNumbering_names, hnames]

/-- Witness for C4: reference `[X, Y, Y]`, target presented in the
scrambled order `Y`, `X`; the output order still follows the reference:
`X`, `Y_1`, `Y_2`. -/
theorem claimC4_witness :
    standardizeTable ⟨1, [("X", [some "1"]), ("Y", [some "2"]), ("Y", [some "3"])]⟩
        ⟨1, [("Y", [some "y1"]), ("X", [some "x1"])]⟩
      = some ⟨1, [("X", [some "x1"]), ("Y_1", [some "y1"]), ("Y_2", [none])]⟩
    ∧ (⟨1, [("X", [some "x1"]), ("Y_1", [some "y1"]), ("Y_2", [none])]⟩ :
          Table).cols.map Prod.fst
        = (expandedNames
            (colNames ⟨1, [("X", [some "1"]), ("Y", [some "2"]), ("Y", [some "3"])]⟩)).map
          stripDotNumber := by
  refine ⟨by decide, ?_⟩
  exact @claimC4_order_amended
    ⟨1, [("X", [some "1"]), ("Y", [some "2"]), ("Y", [some "3"])]⟩
    ⟨1, [("Y", [some "y1"]), ("X", [some "x1"])]⟩
    ⟨1, [("X", [some "x1"]), ("Y_1", [some "y1"]), ("Y_2", [none])]⟩
    (by decide) (by decide)

/-- Counterexample to C4 as stated: reference `[B, B, B_2]` has three
expanded instance positions, but the persisted output has only two columns
(`B_1`, `B_2`), so the output column sequence cannot equal the reference's
expanded first-occurrence order. -/
theorem claimC4_counterexample :
    (standardizeTable
        ⟨1, [("B", [some "b"]), ("B", [some "b2"]), ("B_2", [some "c"])]⟩
        ⟨1, [("Q", [some "q"])]⟩).map (fun t => t.cols.map Prod.fst)
      = some ["B_1", "B_2"]
    ∧ (expandedNames
        (colNames ⟨1, [("B", [some "b"]), ("B", [some "b2"]), ("B_2", [some "c"])]⟩)).map
        stripDotNumber = ["B_1", "B_2", "B_2"]
    ∧ (["B_1", "B_2"] : List String) ≠ ["B_1", "B_2", "B_2"] :=
  ⟨by decide, by decide, by decide⟩

/-- Claim C8: matching is by exact name equality, with no suffix stripping
of the target's incoming names.  For a single-instance reference column
`Header` and a target whose only column is `Header.1` (with any cell data),
the names do not match: the persisted output is a single empty column named
`Header`, and the `Header.1` data is dropped entirely. -/
theorem claimC8_exact_name_match (bd d : List Cell) (bn tn : Nat) :
    standardizeTable ⟨bn, [("Header", bd)]⟩ ⟨tn, [("Header.1", d)]⟩ =
      some ⟨0, [("Header", [])]⟩ := rfl

/-- Helper for C9: a fold of column processing only depends on the
processing function's behaviour on the listed names. -/
theorem foldProcess_congr :
    ∀ (cs : List String) (df : Table) (f g : Table → String → Option Table),
      (∀ c ∈ cs, ∀ d, f d c = g d c) →
      cs.foldlM f df = cs.foldlM g df := by
  intro cs
  induction cs with
  | nil => intro df f g _; rfl
  | cons c rest ih =>
    intro df f g h
    rw [List.foldlM_cons, List.foldlM_cons, h c (List.mem_cons_self c rest) df]
    cases hg : g df c with
    | none => rfl
    | some mid =>
      exact ih mid f g (fun c' hc' d => h c' (List.mem_cons_of_mem c hc') d)

/-- Helper for C9: the processing of one reference name only looks at the
target columns bearing exactly that name. -/
theorem processCol_target_congr {baseCols : List String} {t1 t2 : Table}
    {col : String}
    (h : t1.cols.filter (fun p => p.1 = col) =
      t2.cols.filter (fun p => p.1 = col)) :
    ∀ df, processCol baseCols t1 df col = processCol baseCols t2 df col := by
  intro df
  unfold processCol colAssignments
  rw [h]

/-- Claim C9: a target column whose name appears nowhere among the
reference's column names contributes nothing to the output: deleting all
such columns from the target leaves the persisted result unchanged
(reference-schema-driven reconciliation, not union-driven). -/
theorem claimC9_extraneous_dropped (base : Table) (tn : Nat)
    (tcols : List (String × List Cell)) :
    standardizeTable base ⟨tn, tcols⟩ =
      standardizeTable base
        ⟨tn, tcols.filter (fun p => p.1 ∈ colNames base)⟩ := by
  unfold standardizeTable standardizeDF
  refine congrArg (Option.map removeColumnNumbering) ?_
  refine foldProcess_congr _ _ _ _ (fun c hc d => ?_)
  have hcbase : c ∈ colNames base := ((uniqueFirst_mem _ [] c).mp hc).1
  refine processCol_target_congr ?_ d
  show tcols.filter (fun p => p.1 = c) =
    (tcols.filter (fun p => p.1 ∈ colNames base)).filter (fun p => p.1 = c)
  rw [List.filter_filter]
  refine (List.filter_congr (fun p _ => ?_)).symm
  by_cases hp : p.1 = c
  · simp [hp, hcbase]
  · simp [hp]

end VMTT
